import Mathlib

/-!
Shallow embedding of the Pregel step-synchronous execution engine from
permchain/pregel/__init__.py, together with proofs of the specification
claims about the planner, the step loop, the read boundary, the engine
entry points and the input-schema derivation.
-/

set_option autoImplicit false

namespace Permchain

/-- A Python string object: `id` models CPython object identity (two distinct
objects may hold equal text), `str` is the text. `a is b` in Python is
equality of whole objects (same identity, hence same text); `a == b` and all
dict/set operations compare only the text. -/
structure PyStr where
  id : Nat
  str : String
deriving DecidableEq, Repr

/-- Python values flowing through channels and process inputs: `None`,
integers, strings, lists, and dicts whose keys are `None` or strings (the
only key shapes the engine produces). -/
inductive Val where
  | none : Val
  | int (n : Int) : Val
  | str (s : String) : Val
  | list (xs : List Val) : Val
  | dict (entries : List (Option String × Val)) : Val

/-- Exceptions the embedded core can raise: `EmptyChannelError` from
`Channel.get`, `KeyError` from a registry lookup of an unknown name, and
`TypeError` from iterating a non-iterable value. -/
inductive PErr where
  | emptyChannel : PErr
  | keyError : PErr
  | typeError : PErr
deriving DecidableEq, Repr

/-- Modelled from the spec: the Channel contract of permchain/channels/base.py
(not under src/). A channel is either empty (`state = none`) or holds a
current value; `update` folds a step's writes into the state with the
channel-specific reduction and always leaves a value (spec 4.1 guarantee (b):
after a successful update, `get` is non-failing); `get` fails with
`EmptyChannel` when the state is empty. `updateType` and `valueType` are the
two type descriptors. -/
structure Channel where
  updateType : String
  valueType : String
  state : Option Val
  reduce : List Val → Option Val → Val

/-- `channels[chan].get()`: the current value, or `EmptyChannelError`. -/
def channel_get (ch : Channel) : Except PErr Val :=
  match ch.state with
  | some v => Except.ok v
  | Option.none => Except.error PErr.emptyChannel

/-- `channels[chan].update(vals)`: reduce the step's writes into the state. -/
def channel_update (ch : Channel) (vals : List Val) : Channel :=
  { ch with state := some (ch.reduce vals ch.state) }

/-- The channel registry for one run: an ordered name → channel mapping
(the `channels` bound by `with ChannelsManager(self.channels) as channels`). -/
abbrev Registry := List (String × Channel)

/-- `channels[chan]` as an optional lookup (first entry with that name). -/
def lookupChannel (chans : Registry) (c : String) : Option Channel :=
  (List.find? (fun e => e.1 = c) chans).map (fun e => e.2)

/-- Replace the channel stored under name `c` (in-place mutation of the
registry entry). -/
def setChannel (chans : Registry) (c : String) (ch : Channel) : Registry :=
  List.map (fun e => if e.1 = c then (e.1, ch) else e) chans

/-- `(lookupChannel chans c).bind state`: the current value of channel `c`,
if the name is registered and the channel is non-empty. -/
def chanState (chans : Registry) (c : String) : Option Val :=
  (lookupChannel chans c).bind (fun ch => ch.state)

/-- `true` iff name `c` is registered and its channel holds a value. -/
def chanHasValue (chans : Registry) (c : String) : Bool :=
  match lookupChannel chans c with
  | some ch => ch.state.isSome
  | Option.none => false

/-- A process descriptor, the tagged-variant form of the two classes
PregelInvoke (fields: `channels`, a mapping from optional local key to
channel name, declared in permchain/pregel/read.py and consumed by the
planner) and PregelBatch (fields: `channel`, optional `key`). -/
inductive PregelProc where
  | invoke (channels : List (Option String × String)) : PregelProc
  | batch (channel : String) (key : Option String) : PregelProc
deriving DecidableEq, Repr

/-- The engine's declared input: a single channel name or a sequence of
names (`input: str | Sequence[str]`). Only text matters for the input. -/
inductive InputSpec where
  | single (name : String) : InputSpec
  | many (names : List String) : InputSpec

/-- The engine's declared output. The single-name form keeps the full
`PyStr` object because the step loop compares pending-write names against it
with Python `is` (object identity); the sequence form is compared only by
text. -/
inductive OutputSpec where
  | single (name : PyStr) : OutputSpec
  | many (names : List String) : OutputSpec

/-- All values written to channel name `c` in the pending-writes buffer,
in buffer order. -/
def writesTo (pw : List (String × Val)) (c : String) : List Val :=
  List.filterMap (fun w => if w.1 = c then some w.2 else Option.none) pw

/-- `true` iff some pending write targets channel name `c`. -/
def targeted (pw : List (String × Val)) (c : String) : Bool :=
  List.any pw (fun w => w.1 = c)

/-- The distinct elements of a list in order of first occurrence (the key
order of a Python dict filled by a left-to-right loop). -/
def firstKeys : List String → List String
  | [] => []
  | k :: ks => k :: List.filter (fun x => decide (x ≠ k)) (firstKeys ks)

/-- `pending_writes_by_channel[chan].append(val)`: append `v` to the entry
for key `c`, creating the entry at the end when the key is new. -/
def addWrite (acc : List (String × List Val)) (c : String) (v : Val) :
    List (String × List Val) :=
  match acc with
  | [] => [(c, [v])]
  | (k, vs) :: rest =>
    if k = c then (k, vs ++ [v]) :: rest else (k, vs) :: addWrite rest c v

/-- The grouping loop of `_apply_writes_and_prepare_next_tasks`:
`for chan, val in pending_writes: pending_writes_by_channel[chan].append(val)`
over a `defaultdict(list)` — keys in first-occurrence order, values per key
in buffer order. -/
def group_writes (pw : List (String × Val)) : List (String × List Val) :=
  List.foldl (fun acc w => addWrite acc w.1 w.2) [] pw

/-- The outcome of the write-application loop: the mutated registry, the
`updated_channels` set (as a list, in update order), the names warned about
(`logger.warning` for names with no registered channel), and the trace of
`update` invocations `(name, values)` in call order. -/
structure ApplyResult where
  chans : Registry
  updated : List String
  warnings : List String
  calls : List (String × List Val)

/-- The write-application loop of the planner:
`for chan, vals in pending_writes_by_channel.items(): if chan in channels:
channels[chan].update(vals); updated_channels.add(chan) else: logger.warning(...)`. -/
def applyGroups (chans : Registry) : List (String × List Val) → ApplyResult
  | [] => ⟨chans, [], [], []⟩
  | g :: gs =>
    match lookupChannel chans g.1 with
    | some ch =>
      let r := applyGroups (setChannel chans g.1 (channel_update ch g.2)) gs
      ⟨r.chans, g.1 :: r.updated, r.warnings, g :: r.calls⟩
    | Option.none =>
      let r := applyGroups chans gs
      ⟨r.chans, r.updated, g.1 :: r.warnings, r.calls⟩

/-- The first half of `_apply_writes_and_prepare_next_tasks`: group the
pending writes by channel name and apply each group with one `update` call. -/
def apply_writes (chans : Registry) (pw : List (String × Val)) : ApplyResult :=
  applyGroups chans (group_writes pw)

/-- The `updated_channels` set produced by applying `pw` to `chans`. -/
def updatedChannels (chans : Registry) (pw : List (String × Val)) : List String :=
  (apply_writes chans pw).updated

/-- Python iteration over a value (`for v in val`): lists yield elements,
strings yield one-character strings, dicts yield their keys; `None` and
integers are not iterable (`TypeError`). -/
def pyIter : Val → Option (List Val)
  | Val.list xs => some xs
  | Val.str s => some (List.map (fun c => Val.str (String.mk [c])) s.toList)
  | Val.dict es =>
    some (List.map (fun e =>
      match e.1 with
      | some k => Val.str k
      | Option.none => Val.none) es)
  | _ => Option.none

/-- The dict comprehension
`{k: channels[chan].get() for k, chan in proc.channels.items()}`:
entries are evaluated left to right; a missing registry name raises
`KeyError`; the first `EmptyChannelError` aborts the comprehension (caught
by the caller as "skip this process", encoded as `ok none`). -/
def readAll (chans : Registry) :
    List (Option String × String) → Except PErr (Option (List (Option String × Val)))
  | [] => Except.ok (some [])
  | (k, c) :: rest =>
    match lookupChannel chans c with
    | Option.none => Except.error PErr.keyError
    | some ch =>
      match ch.state with
      | Option.none => Except.ok Option.none
      | some v =>
        (readAll chans rest).map (fun r => r.map (fun es => (k, v) :: es))

/-- Form an Invoke process's input from its read values: the raw value when
the subscription is the single-keyless form `{None: name}` (`val[None]`),
otherwise the key → value dict. -/
def invokeInput (cs : List (Option String × String))
    (entries : List (Option String × Val)) : Val :=
  if List.map (fun e => e.1) cs = [(Option.none : Option String)] then
    ((List.find? (fun e => e.1 = (Option.none : Option String)) entries).map
      (fun e => e.2)).getD Val.none
  else Val.dict entries

/-- The per-process readiness branch of the planner's task loop: decide
whether `proc` runs next step and with which input (`ok none` = skipped). -/
def prepare_task (chans : Registry) (updated : List String) :
    PregelProc → Except PErr (Option (PregelProc × Val))
  | PregelProc.invoke cs =>
    if List.any (List.map (fun e => e.2) cs) (fun c => updated.contains c) then
      (readAll chans cs).map (fun r =>
        r.map (fun entries => (PregelProc.invoke cs, invokeInput cs entries)))
    else Except.ok Option.none
  | PregelProc.batch c key =>
    if updated.contains c then
      match lookupChannel chans c with
      | Option.none => Except.error PErr.keyError
      | some ch =>
        match ch.state with
        | Option.none => Except.error PErr.emptyChannel
        | some v =>
          match key with
          | Option.none => Except.ok (some (PregelProc.batch c key, v))
          | some k =>
            match pyIter v with
            | Option.none => Except.error PErr.typeError
            | some xs =>
              Except.ok (some (PregelProc.batch c key,
                Val.list (List.map (fun x => Val.dict [(some k, x)]) xs)))
    else Except.ok Option.none

/-- The task loop `for proc in processes: ...` of the planner, in process
declaration order; the first exception aborts the loop. -/
def prepare_tasks (chans : Registry) (updated : List String) :
    List PregelProc → Except PErr (List (PregelProc × Val))
  | [] => Except.ok []
  | p :: ps =>
    match prepare_task chans updated p with
    | Except.error e => Except.error e
    | Except.ok t =>
      match prepare_tasks chans updated ps with
      | Except.error e => Except.error e
      | Except.ok rest => Except.ok (t.toList ++ rest)

/-- `_apply_writes_and_prepare_next_tasks(processes, channels, pending_writes)`:
apply the step's writes to the channels, then return the `(process, input)`
pairs ready for the next step (the mutated registry is returned explicitly). -/
def apply_writes_and_prepare_next_tasks (procs : List PregelProc)
    (chans : Registry) (pw : List (String × Val)) :
    Except PErr (Registry × List (PregelProc × Val)) :=
  let r := apply_writes chans pw
  (prepare_tasks r.chans r.updated procs).map (fun ts => (r.chans, ts))

/-- `true` iff the planner run on `(procs, chans, pw)` schedules process `p`
for the next step. -/
def scheduled (procs : List PregelProc) (chans : Registry)
    (pw : List (String × Val)) (p : PregelProc) : Bool :=
  match apply_writes_and_prepare_next_tasks procs chans pw with
  | Except.ok (_, ts) => List.any ts (fun t => t.1 == p)
  | Except.error _ => false

/-- The input the planner passes to process `p` when it schedules it. -/
def scheduledInput (procs : List PregelProc) (chans : Registry)
    (pw : List (String × Val)) (p : PregelProc) : Option Val :=
  match apply_writes_and_prepare_next_tasks procs chans pw with
  | Except.ok (_, ts) => (List.find? (fun t => t.1 == p) ts).map (fun t => t.2)
  | Except.error _ => Option.none

/-- The `read` closure injected into each process
(`try: return channels[chan].get() except EmptyChannelError: return None`);
a name absent from the registry raises `KeyError`, which is not caught. -/
def read (chans : Registry) (chan : String) : Except PErr Val :=
  match lookupChannel chans chan with
  | Option.none => Except.error PErr.keyError
  | some ch =>
    match channel_get ch with
    | Except.error PErr.emptyChannel => Except.ok Val.none
    | Except.error e => Except.error e
    | Except.ok v => Except.ok v

/-- The per-step output emission of `_transform` (after the writes were
applied): with a single output name, yield `channels[self.output].get()` iff
some pending write's name `is` (object identity) the output name; with a
sequence of names, yield a dict over the set of written names that are
declared outputs (Python set iteration order is unspecified; modelled as
first-occurrence order, which no claim depends on). -/
def yieldStep (output : OutputSpec) (chans : Registry)
    (pw : List (PyStr × Val)) : Except PErr (Option Val) :=
  match output with
  | OutputSpec.single name =>
    if List.any pw (fun w => w.1 = name) then
      match lookupChannel chans name.str with
      | Option.none => Except.error PErr.keyError
      | some ch => (channel_get ch).map some
    else Except.ok Option.none
  | OutputSpec.many names =>
    let upd := firstKeys (List.filter (fun c => names.contains c)
      (List.map (fun w => w.1.str) pw))
    if upd.isEmpty then Except.ok Option.none
    else
      (upd.mapM (fun c =>
        match lookupChannel chans c with
        | Option.none => Except.error PErr.keyError
        | some ch => (channel_get ch).map (fun v => (some c, v)))).map
        (fun es => some (Val.dict es))

/-- One process execution: given the step number, the (frozen) registry the
injected `read` closes over, the process and its input, the `(name, value)`
pairs it sends to `pending_writes`. This is the abstract interface to the
out-of-scope user computations; each write name is a Python string object. -/
def Exec := Nat → Registry → PregelProc → Val → List (PyStr × Val)

/-- The step loop of `Pregel._transform`
(`for step in range(config["recursion_limit"])`), with `remaining` the
iterations left. Each iteration: run the current tasks and collect their
pending writes (the concurrent appends serialized in task order); call the
planner; emit the step's output; stop when no tasks remain. Returns the
number of iterations entered and the yielded outputs (or the exception that
aborted the run). -/
def stepLoop (exec : Exec) (procs : List PregelProc) (output : OutputSpec)
    (chans : Registry) (tasks : List (PregelProc × Val)) (step : Nat) :
    Nat → Nat × Except PErr (List Val)
  | 0 => (0, Except.ok [])
  | remaining + 1 =>
    let pw := List.flatten (List.map (fun t => exec step chans t.1 t.2) tasks)
    match apply_writes_and_prepare_next_tasks procs chans
      (List.map (fun w => (w.1.str, w.2)) pw) with
    | Except.error e => (1, Except.error e)
    | Except.ok (chans2, nts) =>
      match yieldStep output chans2 pw with
      | Except.error e => (1, Except.error e)
      | Except.ok out =>
        if nts.isEmpty then (1, Except.ok out.toList)
        else
          let r := stepLoop exec procs output chans2 nts (step + 1) remaining
          (r.1 + 1, r.2.map (fun outs => out.toList ++ outs))

/-- The seed of the run: with a single declared input name, each driver
chunk `x` becomes a write `(name, x)`; with a sequence of names, each chunk
must be a dict, of which the entries whose key is a declared input name
become writes (a non-dict chunk raises `TypeError` from `.items()`). -/
def seedWrites (inputSpec : InputSpec) (chunks : List Val) :
    Except PErr (List (String × Val)) :=
  match inputSpec with
  | InputSpec.single name => Except.ok (List.map (fun c => (name, c)) chunks)
  | InputSpec.many names =>
    (chunks.mapM (fun c =>
      match c with
      | Val.dict es =>
        Except.ok (es.filterMap (fun (e : Option String × Val) =>
          match e.1 with
          | some k => if names.contains k then some (k, e.2) else Option.none
          | Option.none => Option.none))
      | _ => Except.error PErr.typeError)).map List.flatten

/-- The engine configuration fixed at construction (`Pregel` fields). -/
structure Pregel where
  channels : Registry
  chains : List PregelProc
  output : OutputSpec
  input : InputSpec

/-- `Pregel._transform`: seed the pending writes from the driver input, call
the planner once to obtain the first tasks, then run the step loop against
the freshly instantiated registry `chans` (bound by
`with ChannelsManager(self.channels) as channels`). -/
def Pregel.transform (p : Pregel) (chans : Registry) (exec : Exec)
    (recursion_limit : Nat) (chunks : List Val) : Nat × Except PErr (List Val) :=
  match seedWrites p.input chunks with
  | Except.error e => (0, Except.error e)
  | Except.ok seed =>
    match apply_writes_and_prepare_next_tasks p.chains chans seed with
    | Except.error e => (0, Except.error e)
    | Except.ok (chans1, tasks) =>
      stepLoop exec p.chains p.output chans1 tasks 0 recursion_limit

/-- `Pregel.stream`: `self.transform(iter([input]), ...)`. -/
def Pregel.stream (p : Pregel) (chans : Registry) (exec : Exec)
    (recursion_limit : Nat) (input : Val) : Except PErr (List Val) :=
  (p.transform chans exec recursion_limit [input]).2

/-- `Pregel.invoke`: `latest = None; for chunk in self.stream(...): latest =
chunk; return latest` (an exception from the stream propagates). -/
def Pregel.invoke (p : Pregel) (chans : Registry) (exec : Exec)
    (recursion_limit : Nat) (input : Val) : Except PErr Val :=
  (p.stream chans exec recursion_limit input).map
    (fun outs => List.foldl (fun _ c => c) Val.none outs)

/-- A derived input schema: the single-name form delegates to the base
runnable schema built from `InputType = channels[input].UpdateType`; the
sequence form is a record with, per field, its name, its channel's
`UpdateType`, and the default `None` that makes the field optional
(the `(UpdateType, None)` pairs passed to `create_model`). -/
inductive InputSchema where
  | base (ty : String) : InputSchema
  | record (fields : List (String × String × Val)) : InputSchema

/-- The field-building comprehension of `create_model`:
`{k: (self.channels[k].UpdateType, None) for k in ...}`, evaluated left to
right; an unregistered name raises `KeyError`. -/
def schemaFields (chans : Registry) : List String → Except PErr (List (String × String × Val))
  | [] => Except.ok []
  | k :: ks =>
    match lookupChannel chans k with
    | Option.none => Except.error PErr.keyError
    | some ch =>
      match schemaFields chans ks with
      | Except.error e => Except.error e
      | Except.ok rest => Except.ok ((k, ch.updateType, Val.none) :: rest)

/-- `Pregel.get_input_schema`: for a single input name, the base schema from
that channel's `UpdateType`; otherwise `create_model` over
`self.input or self.channels.keys()` (the registry keys when the declared
sequence is empty, since an empty sequence is falsy). -/
def Pregel.get_input_schema (p : Pregel) : Except PErr InputSchema :=
  match p.input with
  | InputSpec.single n =>
    match lookupChannel p.channels n with
    | Option.none => Except.error PErr.keyError
    | some ch => Except.ok (InputSchema.base ch.updateType)
  | InputSpec.many names =>
    ((schemaFields p.channels
      (if names.isEmpty then List.map (fun (e : String × Channel) => e.1) p.channels
        else names)).map InputSchema.record)

/-- The `UpdateType` descriptor of the channel registered under `k`
(defaulting to the empty descriptor for an unregistered name). -/
def updTypeD (chans : Registry) (k : String) : String :=
  ((lookupChannel chans k).map (fun ch => ch.updateType)).getD ""

/-! ### Concrete instances used by closed theorems and witnesses -/

/-- A LastValue channel: the current value is the last write of the step. -/
def lastValue : Channel :=
  ⟨"int", "int", Option.none, fun ws old => ws.getLastD (old.getD Val.none)⟩

/-- The output name object of the identity-check run. -/
def outName : PyStr := ⟨0, "out"⟩

/-- A distinct string object with the same text as `outName` (in CPython, an
equal string built at runtime instead of the interned literal). -/
def aliasOut : PyStr := ⟨1, "out"⟩

/-- An execution in which the one process writes `5` to the channel named
"out" through the alias object. -/
def demoExec : Exec := fun _ _ _ _ => [(aliasOut, Val.int 5)]

/-- The single seeded task of the identity-check run. -/
def demoTasks : List (PregelProc × Val) :=
  [(PregelProc.invoke [(Option.none, "in")], Val.int 1)]

/-- The registry of the identity-check run: one LastValue channel "out". -/
def demoChans : Registry := [("out", lastValue)]

end Permchain

namespace Permchain

/-! ### Grouping pending writes: `firstKeys`, `addWrite`, `group_writes` -/

theorem writesTo_cons (w : String × Val) (pw : List (String × Val)) (c : String) :
    writesTo (w :: pw) c = if w.1 = c then w.2 :: writesTo pw c else writesTo pw c := by
  simp only [writesTo, List.filterMap_cons]
  by_cases h : w.1 = c <;> simp [h]

theorem mem_firstKeys {k : String} : ∀ {ks : List String}, k ∈ firstKeys ks ↔ k ∈ ks
  | [] => Iff.rfl
  | k0 :: ks => by
    simp only [firstKeys, List.mem_cons, List.mem_filter, decide_eq_true_eq]
    constructor
    · rintro (rfl | ⟨h, _⟩)
      · exact Or.inl rfl
      · exact Or.inr (mem_firstKeys.mp h)
    · rintro (rfl | h)
      · exact Or.inl rfl
      · by_cases hk : k = k0
        · exact Or.inl hk
        · exact Or.inr ⟨mem_firstKeys.mpr h, hk⟩

theorem nodup_firstKeys : ∀ (ks : List String), (firstKeys ks).Nodup
  | [] => List.nodup_nil
  | k :: ks => by
    simp only [firstKeys, List.nodup_cons]
    refine ⟨fun hmem => ?_, (nodup_firstKeys ks).filter _⟩
    have := (List.mem_filter.mp hmem).2
    simp at this

theorem firstKeys_filter (p : String → Bool) :
    ∀ (ks : List String), firstKeys (ks.filter p) = (firstKeys ks).filter p
  | [] => rfl
  | k :: ks => by
    by_cases hp : p k
    · rw [show (k :: ks).filter p = k :: ks.filter p by simp [hp]]
      simp only [firstKeys, firstKeys_filter p ks]
      rw [show (k :: List.filter (fun x => decide (x ≠ k)) (firstKeys ks)).filter p
          = k :: ((firstKeys ks).filter (fun x => decide (x ≠ k))).filter p by
        simp [List.filter_cons, hp]]
      rw [List.filter_filter, List.filter_filter]
      exact congrArg _ (List.filter_congr (fun x _ => Bool.and_comm _ _))
    · rw [show (k :: ks).filter p = ks.filter p by simp [hp]]
      rw [firstKeys_filter p ks]
      rw [show firstKeys (k :: ks) = k :: (firstKeys ks).filter (fun x => decide (x ≠ k))
          from rfl]
      rw [show (k :: (firstKeys ks).filter (fun x => decide (x ≠ k))).filter p
          = ((firstKeys ks).filter (fun x => decide (x ≠ k))).filter p by
        simp [List.filter_cons, hp]]
      rw [List.filter_filter]
      refine (List.filter_congr (fun x _ => ?_)).symm
      by_cases hx : p x
      · have hxk : x ≠ k := fun h => by rw [h] at hx; exact hp hx
        simp [hx, hxk]
      · simp [hx]

theorem addWrite_eq_of_not_mem (acc : List (String × List Val)) (c : String) (v : Val)
    (h : c ∉ acc.map (fun e => e.1)) : addWrite acc c v = acc ++ [(c, [v])] := by
  induction acc with
  | nil => rfl
  | cons e rest ih =>
    obtain ⟨k, vs⟩ := e
    simp only [List.map_cons, List.mem_cons] at h
    push_neg at h
    simp only [addWrite, if_neg (fun hkc : k = c => h.1 hkc.symm), List.cons_append]
    exact congrArg _ (ih h.2)

theorem addWrite_eq_of_mem (acc : List (String × List Val)) (c : String) (v : Val)
    (hnd : (acc.map (fun e => e.1)).Nodup) (h : c ∈ acc.map (fun e => e.1)) :
    addWrite acc c v = acc.map (fun e => if e.1 = c then (e.1, e.2 ++ [v]) else e) := by
  induction acc with
  | nil => simp at h
  | cons e rest ih =>
    obtain ⟨k, vs⟩ := e
    simp only [List.map_cons, List.nodup_cons] at hnd
    simp only [List.map_cons, List.mem_cons] at h
    by_cases hkc : k = c
    · subst hkc
      have h1 : addWrite ((k, vs) :: rest) k v = (k, vs ++ [v]) :: rest := by
        simp [addWrite]
      have h2 : ∀ e ∈ rest,
          (if (e : String × List Val).1 = k then (e.1, e.2 ++ [v]) else e) = e := by
        intro e he
        have hek : e.1 ≠ k := fun hek => hnd.1 (hek ▸ List.mem_map_of_mem (fun x => x.1) he)
        simp [hek]
      rw [h1, List.map_cons, if_pos rfl, List.map_congr_left h2]
      simp
    · have hc : c ∈ rest.map (fun e => e.1) := h.resolve_left (fun hck => hkc hck.symm)
      simp only [addWrite, if_neg hkc, List.map_cons, if_neg (fun h : k = c => hkc h)]
      exact congrArg _ (ih hnd.2 hc)

theorem addWrite_keys_of_mem (acc : List (String × List Val)) (c : String) (v : Val)
    (hnd : (acc.map (fun e => e.1)).Nodup) (h : c ∈ acc.map (fun e => e.1)) :
    (addWrite acc c v).map (fun e => e.1) = acc.map (fun e => e.1) := by
  rw [addWrite_eq_of_mem acc c v hnd h, List.map_map]
  refine List.map_congr_left (fun e _ => ?_)
  by_cases hec : e.1 = c <;> simp [hec]

theorem foldl_addWrite_closed :
    ∀ (pw : List (String × Val)) (acc : List (String × List Val)),
      (acc.map (fun e => e.1)).Nodup →
      List.foldl (fun a w => addWrite a w.1 w.2) acc pw =
        acc.map (fun e => (e.1, e.2 ++ writesTo pw e.1)) ++
          ((firstKeys (pw.map (fun w => w.1))).filter
            (fun k => decide (k ∉ acc.map (fun e => e.1)))).map
            (fun k => (k, writesTo pw k))
  | [], acc, hnd => by
    simp [writesTo, firstKeys]
  | (c, v) :: rest, acc, hnd => by
    rw [List.foldl_cons]
    by_cases hc : c ∈ acc.map (fun e => e.1)
    · have hkeys : ((acc.map (fun e => if e.1 = c then (e.1, e.2 ++ [v]) else e)).map
          (fun e => e.1)) = acc.map (fun e => e.1) := by
        rw [List.map_map]
        refine List.map_congr_left (fun e _ => ?_)
        by_cases hec : e.1 = c <;> simp [hec]
      rw [show addWrite acc (c, v).1 (c, v).2
          = acc.map (fun e => if e.1 = c then (e.1, e.2 ++ [v]) else e)
          from addWrite_eq_of_mem acc c v hnd hc]
      rw [foldl_addWrite_closed rest _ (by rw [hkeys]; exact hnd)]
      have h1 : (acc.map (fun e => if e.1 = c then (e.1, e.2 ++ [v]) else e)).map
          (fun e => (e.1, e.2 ++ writesTo rest e.1))
          = acc.map (fun e => (e.1, e.2 ++ writesTo ((c, v) :: rest) e.1)) := by
        rw [List.map_map]
        refine List.map_congr_left (fun e _ => ?_)
        by_cases hec : e.1 = c
        · simp [writesTo_cons, hec, List.append_assoc]
        · have hce : ¬c = e.1 := fun h => hec h.symm
          simp [writesTo_cons, hec, hce]
      have h2 : ((firstKeys (rest.map (fun w => w.1))).filter
            (fun k => decide (k ∉ (acc.map (fun e => if e.1 = c then (e.1, e.2 ++ [v]) else e)).map
              (fun e => e.1)))).map (fun k => (k, writesTo rest k))
          = ((firstKeys (((c, v) :: rest).map (fun w => w.1))).filter
            (fun k => decide (k ∉ acc.map (fun e => e.1)))).map
            (fun k => (k, writesTo ((c, v) :: rest) k)) := by
        rw [hkeys]
        rw [show firstKeys (((c, v) :: rest).map (fun w => w.1))
            = c :: (firstKeys (rest.map (fun w => w.1))).filter (fun x => decide (x ≠ c))
            from rfl]
        rw [List.filter_cons]
        rw [if_neg (by simp [hc])]
        rw [List.filter_filter]
        have hpred : ∀ x ∈ firstKeys (rest.map (fun w => w.1)),
            (decide (x ∉ acc.map (fun e => e.1)) && decide (x ≠ c))
              = decide (x ∉ acc.map (fun e => e.1)) := by
          intro x _
          by_cases hx : x ∈ acc.map (fun e => e.1)
          · simp [hx]
          · have : x ≠ c := fun h => hx (h ▸ hc)
            simp [hx, this]
        rw [List.filter_congr hpred]
        refine List.map_congr_left (fun k hk => ?_)
        have hkn : k ∉ acc.map (fun e => e.1) := by
          have := (List.mem_filter.mp hk).2
          simpa using this
        have hck : ¬c = k := fun h => hkn (h ▸ hc)
        simp [writesTo_cons, hck]
      rw [h1, h2]
    · rw [show addWrite acc (c, v).1 (c, v).2 = acc ++ [(c, [v])]
          from addWrite_eq_of_not_mem acc c v hc]
      have hnd2 : (((acc ++ [(c, [v])]).map (fun e => e.1))).Nodup := by
        rw [List.map_append]
        simp only [List.map_cons, List.map_nil]
        rw [List.nodup_append]
        exact ⟨hnd, List.nodup_singleton c, by simpa [List.disjoint_singleton] using hc⟩
      rw [foldl_addWrite_closed rest _ hnd2]
      have h1 : (acc ++ [(c, [v])]).map (fun e => (e.1, e.2 ++ writesTo rest e.1))
          = acc.map (fun e => (e.1, e.2 ++ writesTo ((c, v) :: rest) e.1))
            ++ [(c, writesTo ((c, v) :: rest) c)] := by
        rw [List.map_append]
        refine congrArg₂ (· ++ ·) ?_ ?_
        · refine List.map_congr_left (fun e he => ?_)
          have hec : e.1 ≠ c := fun h => hc (h ▸ List.mem_map_of_mem (fun x => x.1) he)
          have hce : ¬c = e.1 := fun h => hec h.symm
          simp [writesTo_cons, hce]
        · simp [writesTo_cons]
      have h2 : ((firstKeys (rest.map (fun w => w.1))).filter
            (fun k => decide (k ∉ (acc ++ [(c, [v])]).map (fun e => e.1)))).map
            (fun k => (k, writesTo rest k))
          = ((firstKeys (rest.map (fun w => w.1))).filter
            (fun x => decide (x ≠ c) && decide (x ∉ acc.map (fun e => e.1)))).map
            (fun k => (k, writesTo ((c, v) :: rest) k)) := by
        have hpred : ∀ x ∈ firstKeys (rest.map (fun w => w.1)),
            (decide (x ∉ (acc ++ [(c, [v])]).map (fun e => e.1)))
              = (decide (x ≠ c) && decide (x ∉ acc.map (fun e => e.1))) := by
          intro x _
          rw [List.map_append]
          by_cases hx : x ∈ acc.map (fun e => e.1)
          · simp [hx]
          · by_cases hxc : x = c <;> simp [hx, hxc]
        rw [List.filter_congr hpred]
        refine List.map_congr_left (fun k hk => ?_)
        have hkc : ¬c = k := by
          have := (List.mem_filter.mp hk).2
          intro h
          simp [h.symm] at this
        simp [writesTo_cons, hkc]
      rw [h1, h2]
      rw [show firstKeys (((c, v) :: rest).map (fun w => w.1))
          = c :: (firstKeys (rest.map (fun w => w.1))).filter (fun x => decide (x ≠ c))
          from rfl]
      rw [List.filter_cons, if_pos (by simp [hc]), List.map_cons, List.filter_filter]
      rw [List.append_assoc, List.singleton_append]
      rw [show List.filter (fun a => decide (a ∉ List.map (fun e => e.1) acc) && decide (a ≠ c))
            (firstKeys (List.map (fun w => w.1) rest))
          = List.filter (fun x => decide (x ≠ c) && decide (x ∉ List.map (fun e => e.1) acc))
            (firstKeys (List.map (fun w => w.1) rest))
        from List.filter_congr (fun x _ => Bool.and_comm _ _)]

theorem group_writes_closed (pw : List (String × Val)) :
    group_writes pw
      = (firstKeys (pw.map (fun w => w.1))).map (fun k => (k, writesTo pw k)) := by
  have h := foldl_addWrite_closed pw [] (by simp)
  unfold group_writes
  rw [h]
  simp

theorem group_writes_keys (pw : List (String × Val)) :
    (group_writes pw).map (fun g => g.1) = firstKeys (pw.map (fun w => w.1)) := by
  rw [group_writes_closed, List.map_map]
  exact (List.map_congr_left fun a _ => rfl).trans (List.map_id _)

theorem targeted_iff (pw : List (String × Val)) (c : String) :
    targeted pw c = true ↔ c ∈ pw.map (fun w => w.1) := by
  simp [targeted, List.any_eq_true, List.mem_map]

/-! ### Registry lookup and update -/

theorem lookupChannel_cons (k : String) (ch : Channel) (rest : Registry) (x : String) :
    lookupChannel ((k, ch) :: rest) x
      = if k = x then some ch else lookupChannel rest x := by
  by_cases h : k = x
  · simp [lookupChannel, List.find?_cons_of_pos, h]
  · simp [lookupChannel, List.find?_cons_of_neg, h]

theorem lookupChannel_setChannel_ne (chans : Registry) (c x : String) (ch : Channel)
    (h : x ≠ c) : lookupChannel (setChannel chans c ch) x = lookupChannel chans x := by
  induction chans with
  | nil => rfl
  | cons e rest ih =>
    obtain ⟨k, ch0⟩ := e
    by_cases hkc : k = c
    · have hkx : ¬(k = x) := fun hx => h (hx ▸ hkc)
      rw [show setChannel ((k, ch0) :: rest) c ch = (k, ch) :: setChannel rest c ch by
        simp [setChannel, hkc]]
      rw [lookupChannel_cons, lookupChannel_cons, if_neg hkx, if_neg hkx]
      exact ih
    · rw [show setChannel ((k, ch0) :: rest) c ch = (k, ch0) :: setChannel rest c ch by
        simp [setChannel, hkc]]
      rw [lookupChannel_cons, lookupChannel_cons]
      by_cases hkx : k = x
      · rw [if_pos hkx, if_pos hkx]
      · rw [if_neg hkx, if_neg hkx]
        exact ih

theorem lookupChannel_setChannel_self (chans : Registry) (c : String) (ch : Channel)
    (h : (lookupChannel chans c).isSome = true) :
    lookupChannel (setChannel chans c ch) c = some ch := by
  induction chans with
  | nil => simp [lookupChannel] at h
  | cons e rest ih =>
    obtain ⟨k, ch0⟩ := e
    by_cases hkc : k = c
    · rw [show setChannel ((k, ch0) :: rest) c ch = (k, ch) :: setChannel rest c ch by
        simp [setChannel, hkc]]
      rw [lookupChannel_cons, if_pos hkc]
    · rw [show setChannel ((k, ch0) :: rest) c ch = (k, ch0) :: setChannel rest c ch by
        simp [setChannel, hkc]]
      rw [lookupChannel_cons, if_neg hkc]
      rw [lookupChannel_cons, if_neg hkc] at h
      exact ih h

theorem lookupChannel_setChannel_isSome (chans : Registry) (c : String) (ch : Channel)
    (x : String) :
    (lookupChannel (setChannel chans c ch) x).isSome = (lookupChannel chans x).isSome := by
  induction chans with
  | nil => rfl
  | cons e rest ih =>
    obtain ⟨k, ch0⟩ := e
    by_cases hkc : k = c
    · rw [show setChannel ((k, ch0) :: rest) c ch = (k, ch) :: setChannel rest c ch by
        simp [setChannel, hkc]]
      rw [lookupChannel_cons, lookupChannel_cons]
      by_cases hkx : k = x
      · rw [if_pos hkx, if_pos hkx]
        rfl
      · rw [if_neg hkx, if_neg hkx]
        exact ih
    · rw [show setChannel ((k, ch0) :: rest) c ch = (k, ch0) :: setChannel rest c ch by
        simp [setChannel, hkc]]
      rw [lookupChannel_cons, lookupChannel_cons]
      by_cases hkx : k = x
      · rw [if_pos hkx, if_pos hkx]
      · rw [if_neg hkx, if_neg hkx]
        exact ih

/-! ### The write-application loop -/

theorem applyGroups_lookup_isSome : ∀ (gs : List (String × List Val)) (chans : Registry)
    (x : String),
    (lookupChannel (applyGroups chans gs).chans x).isSome = (lookupChannel chans x).isSome
  | [], _, _ => rfl
  | g :: gs, chans, x => by
    simp only [applyGroups]
    cases hl : lookupChannel chans g.1 with
    | some ch =>
      simp only []
      rw [applyGroups_lookup_isSome gs _ x, lookupChannel_setChannel_isSome]
    | none =>
      simp only []
      exact applyGroups_lookup_isSome gs chans x

theorem applyGroups_calls : ∀ (gs : List (String × List Val)) (chans : Registry),
    (applyGroups chans gs).calls
      = gs.filter (fun g => (lookupChannel chans g.1).isSome)
  | [], _ => rfl
  | g :: gs, chans => by
    simp only [applyGroups]
    cases hl : lookupChannel chans g.1 with
    | some ch =>
      simp only [List.filter_cons, hl, Option.isSome_some, if_pos]
      refine congrArg _ ?_
      rw [applyGroups_calls gs _]
      exact List.filter_congr (fun x _ =>
        lookupChannel_setChannel_isSome chans g.1 (channel_update ch g.2) x.1)
    | none =>
      simp only [List.filter_cons, hl, Option.isSome_none]
      rw [if_neg (by simp)]
      exact applyGroups_calls gs chans

theorem applyGroups_updated : ∀ (gs : List (String × List Val)) (chans : Registry),
    (applyGroups chans gs).updated
      = (gs.filter (fun g => (lookupChannel chans g.1).isSome)).map (fun g => g.1)
  | [], _ => rfl
  | g :: gs, chans => by
    simp only [applyGroups]
    cases hl : lookupChannel chans g.1 with
    | some ch =>
      simp only [List.filter_cons, hl, Option.isSome_some, if_pos, List.map_cons]
      refine congrArg _ ?_
      rw [applyGroups_updated gs _]
      refine congrArg _ (List.filter_congr (fun x _ => ?_))
      exact lookupChannel_setChannel_isSome chans g.1 (channel_update ch g.2) x.1
    | none =>
      simp only [List.filter_cons, hl, Option.isSome_none]
      rw [if_neg (by simp)]
      exact applyGroups_updated gs chans

theorem applyGroups_warnings : ∀ (gs : List (String × List Val)) (chans : Registry),
    (applyGroups chans gs).warnings
      = (gs.filter (fun g => !(lookupChannel chans g.1).isSome)).map (fun g => g.1)
  | [], _ => rfl
  | g :: gs, chans => by
    simp only [applyGroups]
    cases hl : lookupChannel chans g.1 with
    | some ch =>
      simp only [List.filter_cons, hl, Option.isSome_some]
      rw [if_neg (by simp)]
      rw [applyGroups_warnings gs _]
      refine congrArg _ (List.filter_congr (fun x _ => ?_))
      exact congrArg (fun b => !b)
        (lookupChannel_setChannel_isSome chans g.1 (channel_update ch g.2) x.1)
    | none =>
      simp only [List.filter_cons, hl, Option.isSome_none]
      rw [if_pos (by simp), List.map_cons]
      exact congrArg _ (applyGroups_warnings gs chans)

theorem applyGroups_lookup_of_not_mem : ∀ (gs : List (String × List Val)) (chans : Registry)
    (c : String), c ∉ gs.map (fun g => g.1) →
    lookupChannel (applyGroups chans gs).chans c = lookupChannel chans c
  | [], _, _, _ => rfl
  | g :: gs, chans, c, h => by
    simp only [List.map_cons, List.mem_cons] at h
    push_neg at h
    simp only [applyGroups]
    cases hl : lookupChannel chans g.1 with
    | some ch =>
      simp only []
      rw [applyGroups_lookup_of_not_mem gs _ c h.2]
      exact lookupChannel_setChannel_ne chans g.1 c (channel_update ch g.2) h.1
    | none =>
      simp only []
      exact applyGroups_lookup_of_not_mem gs chans c h.2

theorem applyGroups_lookup_of_mem : ∀ (gs : List (String × List Val)) (chans : Registry)
    (c : String) (vs : List Val) (ch : Channel),
    (gs.map (fun g => g.1)).Nodup → (c, vs) ∈ gs → lookupChannel chans c = some ch →
    lookupChannel (applyGroups chans gs).chans c = some (channel_update ch vs)
  | [], _, _, _, _, _, hmem, _ => absurd hmem (List.not_mem_nil _)
  | g :: gs, chans, c, vs, ch, hnd, hmem, hch => by
    simp only [List.map_cons, List.nodup_cons] at hnd
    rcases List.mem_cons.mp hmem with heq | htail
    · subst heq
      simp only [applyGroups, hch]
      have hnot : c ∉ gs.map (fun g => g.1) := by simpa using hnd.1
      rw [applyGroups_lookup_of_not_mem gs _ c hnot]
      exact lookupChannel_setChannel_self chans c (channel_update ch vs)
        (by rw [hch]; rfl)
    · have hgc : g.1 ≠ c := by
        intro h
        exact hnd.1 (h ▸ List.mem_map_of_mem (fun g => g.1) htail)
      simp only [applyGroups]
      cases hl : lookupChannel chans g.1 with
      | some ch0 =>
        simp only []
        refine applyGroups_lookup_of_mem gs _ c vs ch hnd.2 htail ?_
        rw [lookupChannel_setChannel_ne chans g.1 c (channel_update ch0 g.2)
          (fun h => hgc h.symm)]
        exact hch
      | none =>
        simp only []
        exact applyGroups_lookup_of_mem gs chans c vs ch hnd.2 htail hch

/-! ### apply_writes characterizations -/

theorem contains_iff_mem (l : List String) (c : String) : l.contains c = true ↔ c ∈ l := by
  show l.elem c = true ↔ c ∈ l
  simp [List.elem_eq_mem]

theorem apply_writes_lookup_isSome (chans : Registry) (pw : List (String × Val))
    (x : String) :
    (lookupChannel (apply_writes chans pw).chans x).isSome = (lookupChannel chans x).isSome :=
  applyGroups_lookup_isSome (group_writes pw) chans x

theorem apply_writes_calls_eq (chans : Registry) (pw : List (String × Val)) :
    (apply_writes chans pw).calls
      = (group_writes pw).filter (fun g => (lookupChannel chans g.1).isSome) :=
  applyGroups_calls (group_writes pw) chans

theorem mem_apply_writes_updated (chans : Registry) (pw : List (String × Val)) (c : String) :
    c ∈ (apply_writes chans pw).updated
      ↔ targeted pw c = true ∧ (lookupChannel chans c).isSome = true := by
  rw [show (apply_writes chans pw).updated = (applyGroups chans (group_writes pw)).updated
      from rfl]
  rw [applyGroups_updated, group_writes_closed, targeted_iff]
  constructor
  · intro h
    obtain ⟨g, hg, hgc⟩ := List.mem_map.mp h
    obtain ⟨hgmem, hreg⟩ := List.mem_filter.mp hg
    obtain ⟨k, hk, hke⟩ := List.mem_map.mp hgmem
    subst hke
    subst hgc
    exact ⟨mem_firstKeys.mp hk, hreg⟩
  · rintro ⟨hmem, hreg⟩
    refine List.mem_map.mpr ⟨(c, writesTo pw c), List.mem_filter.mpr ⟨?_, hreg⟩, rfl⟩
    exact List.mem_map.mpr ⟨c, mem_firstKeys.mpr hmem, rfl⟩

theorem chanHasValue_of_mem_updated (chans : Registry) (pw : List (String × Val))
    (c : String) (h : c ∈ (apply_writes chans pw).updated) :
    chanHasValue (apply_writes chans pw).chans c = true := by
  obtain ⟨htgt, hreg⟩ := (mem_apply_writes_updated chans pw c).mp h
  obtain ⟨ch, hch⟩ := Option.isSome_iff_exists.mp hreg
  have hmemg : (c, writesTo pw c) ∈ group_writes pw := by
    rw [group_writes_closed]
    exact List.mem_map.mpr ⟨c, mem_firstKeys.mpr ((targeted_iff pw c).mp htgt), rfl⟩
  have hnd : ((group_writes pw).map (fun g => g.1)).Nodup := by
    rw [group_writes_keys]
    exact nodup_firstKeys _
  have hlook := applyGroups_lookup_of_mem (group_writes pw) chans c (writesTo pw c) ch
    hnd hmemg hch
  rw [show (apply_writes chans pw).chans = (applyGroups chans (group_writes pw)).chans
      from rfl]
  rw [chanHasValue, hlook]
  rfl

theorem chanState_of_mem_updated (chans : Registry) (pw : List (String × Val))
    (c : String) (ch : Channel) (h : c ∈ (apply_writes chans pw).updated)
    (hch : lookupChannel chans c = some ch) :
    chanState (apply_writes chans pw).chans c
      = some (ch.reduce (writesTo pw c) ch.state) := by
  obtain ⟨htgt, _⟩ := (mem_apply_writes_updated chans pw c).mp h
  have hmemg : (c, writesTo pw c) ∈ group_writes pw := by
    rw [group_writes_closed]
    exact List.mem_map.mpr ⟨c, mem_firstKeys.mpr ((targeted_iff pw c).mp htgt), rfl⟩
  have hnd : ((group_writes pw).map (fun g => g.1)).Nodup := by
    rw [group_writes_keys]
    exact nodup_firstKeys _
  have hlook := applyGroups_lookup_of_mem (group_writes pw) chans c (writesTo pw c) ch
    hnd hmemg hch
  rw [show (apply_writes chans pw).chans = (applyGroups chans (group_writes pw)).chans
      from rfl]
  rw [chanState, hlook]
  rfl

/-! ### Reading the subscribed channels of an Invoke process -/

theorem readAll_isOk : ∀ (cs : List (Option String × String)) (chans : Registry),
    (∀ c ∈ cs.map (fun e => e.2), (lookupChannel chans c).isSome = true) →
    ∃ r, readAll chans cs = Except.ok r
  | [], _, _ => ⟨some [], rfl⟩
  | (k, c) :: rest, chans, hreg => by
    obtain ⟨ch, hch⟩ := Option.isSome_iff_exists.mp (hreg c (by simp))
    simp only [readAll, hch]
    cases hst : ch.state with
    | none => exact ⟨Option.none, rfl⟩
    | some v =>
      obtain ⟨r, hr⟩ := readAll_isOk rest chans (fun x hx => hreg x (by simp [hx]))
      rw [hr]
      exact ⟨r.map (fun es => (k, v) :: es), rfl⟩

theorem readAll_none_of_empty : ∀ (cs : List (Option String × String)) (chans : Registry),
    (∀ c ∈ cs.map (fun e => e.2), (lookupChannel chans c).isSome = true) →
    (∃ c0 ∈ cs.map (fun e => e.2), chanHasValue chans c0 = false) →
    readAll chans cs = Except.ok Option.none
  | [], _, _, hex => by simp at hex
  | (k, c) :: rest, chans, hreg, hex => by
    obtain ⟨ch, hch⟩ := Option.isSome_iff_exists.mp (hreg c (by simp))
    simp only [readAll, hch]
    cases hst : ch.state with
    | none => rfl
    | some v =>
      obtain ⟨c0, hc0m, hc0⟩ := hex
      have hc0r : c0 ∈ rest.map (fun e => e.2) := by
        rcases (by simpa using hc0m : c0 = c ∨ ∃ a, (a, c0) ∈ rest) with hh | ⟨a, ha⟩
        · exfalso
          rw [chanHasValue, hh, hch] at hc0
          simp [hst] at hc0
        · exact List.mem_map.mpr ⟨(a, c0), ha, rfl⟩
      rw [readAll_none_of_empty rest chans (fun x hx => hreg x (by simp [hx]))
        ⟨c0, hc0r, hc0⟩]
      rfl

theorem readAll_some_of_hasValue : ∀ (cs : List (Option String × String)) (chans : Registry),
    (∀ c ∈ cs.map (fun e => e.2), chanHasValue chans c = true) →
    ∃ es, readAll chans cs = Except.ok (some es)
  | [], _, _ => ⟨[], rfl⟩
  | (k, c) :: rest, chans, hval => by
    have hc := hval c (by simp)
    rw [chanHasValue] at hc
    cases hch : lookupChannel chans c with
    | none => rw [hch] at hc; cases hc
    | some ch =>
      rw [hch] at hc
      obtain ⟨v, hst⟩ := Option.isSome_iff_exists.mp hc
      obtain ⟨es, hes⟩ := readAll_some_of_hasValue rest chans
        (fun x hx => hval x (by simp [hx]))
      simp only [readAll, hch, hst, hes]
      exact ⟨(k, v) :: es, rfl⟩

/-! ### The planner's task construction -/

theorem prepare_task_ok_fst (chans : Registry) (upd : List String) (p : PregelProc)
    (t : PregelProc × Val) (h : prepare_task chans upd p = Except.ok (some t)) :
    t.1 = p := by
  cases p with
  | invoke cs =>
    simp only [prepare_task] at h
    split at h
    · cases hra : readAll chans cs with
      | error e => rw [hra] at h; cases h
      | ok r =>
        rw [hra] at h
        cases r with
        | none => cases h
        | some es =>
          simp only [Except.map] at h
          cases h
          rfl
    · cases h
  | batch c key =>
    simp only [prepare_task] at h
    split at h
    · cases hch : lookupChannel chans c with
      | none => simp only [hch] at h; cases h
      | some ch =>
        simp only [hch] at h
        cases hst : ch.state with
        | none => simp only [hst] at h; cases h
        | some v =>
          simp only [hst] at h
          cases key with
          | none => cases h; rfl
          | some kk =>
            cases hit : pyIter v with
            | none => simp only [hit] at h; cases h
            | some xs => simp only [hit] at h; cases h; rfl
    · cases h

theorem mem_prepare_tasks : ∀ (procs : List PregelProc) (chans : Registry)
    (upd : List String) (ts : List (PregelProc × Val)) (t : PregelProc × Val),
    prepare_tasks chans upd procs = Except.ok ts →
    (t ∈ ts ↔ t.1 ∈ procs ∧ prepare_task chans upd t.1 = Except.ok (some t))
  | [], chans, upd, ts, t, h => by
    cases h
    simp
  | p :: ps, chans, upd, ts, t, h => by
    simp only [prepare_tasks] at h
    cases hp : prepare_task chans upd p with
    | error e => rw [hp] at h; cases h
    | ok t0 =>
      rw [hp] at h
      cases hr : prepare_tasks chans upd ps with
      | error e => rw [hr] at h; cases h
      | ok rest =>
        rw [hr] at h
        cases h
        have ih := mem_prepare_tasks ps chans upd rest t hr
        constructor
        · intro hmem
          rcases List.mem_append.mp hmem with hh | ht
          · cases t0 with
            | none => simp at hh
            | some t1 =>
              simp only [Option.toList] at hh
              rcases List.mem_singleton.mp hh with rfl
              have := prepare_task_ok_fst chans upd p t hp
              exact ⟨this ▸ List.mem_cons_self p ps, this ▸ hp⟩
          · obtain ⟨hmemp, hpt⟩ := ih.mp ht
            exact ⟨List.mem_cons_of_mem p hmemp, hpt⟩
        · rintro ⟨hmemp, hpt⟩
          rcases List.mem_cons.mp hmemp with heq | htail
          · rw [heq] at hpt
            rw [hpt] at hp
            cases hp
            exact List.mem_append.mpr (Or.inl (by simp))
          · exact List.mem_append.mpr (Or.inr (ih.mpr ⟨htail, hpt⟩))

theorem prepare_tasks_ok_of_mem : ∀ (procs : List PregelProc) (chans : Registry)
    (upd : List String) (ts : List (PregelProc × Val)) (p : PregelProc),
    prepare_tasks chans upd procs = Except.ok ts → p ∈ procs →
    ∃ r, prepare_task chans upd p = Except.ok r
  | [], _, _, _, p, _, hmem => absurd hmem (List.not_mem_nil p)
  | q :: ps, chans, upd, ts, p, h, hmem => by
    simp only [prepare_tasks] at h
    cases hp : prepare_task chans upd q with
    | error e => rw [hp] at h; cases h
    | ok t0 =>
      rw [hp] at h
      cases hr : prepare_tasks chans upd ps with
      | error e => rw [hr] at h; cases h
      | ok rest =>
        rcases List.mem_cons.mp hmem with heq | htail
        · exact ⟨t0, heq ▸ hp⟩
        · exact prepare_tasks_ok_of_mem ps chans upd rest p hr htail

theorem prepare_tasks_nil_updated : ∀ (procs : List PregelProc) (chans : Registry),
    prepare_tasks chans [] procs = Except.ok []
  | [], _ => rfl
  | p :: ps, chans => by
    cases p with
    | invoke cs =>
      simp only [prepare_tasks, prepare_task]
      rw [if_neg (by simp)]
      rw [prepare_tasks_nil_updated ps chans]
      rfl
    | batch c key =>
      simp only [prepare_tasks, prepare_task]
      rw [if_neg (by simp)]
      rw [prepare_tasks_nil_updated ps chans]
      rfl

theorem planner_ok_inv (procs : List PregelProc) (chans : Registry)
    (pw : List (String × Val)) (chans2 : Registry) (ts : List (PregelProc × Val))
    (h : apply_writes_and_prepare_next_tasks procs chans pw = Except.ok (chans2, ts)) :
    chans2 = (apply_writes chans pw).chans
      ∧ prepare_tasks (apply_writes chans pw).chans (apply_writes chans pw).updated procs
        = Except.ok ts := by
  simp only [apply_writes_and_prepare_next_tasks] at h
  cases hpt : prepare_tasks (apply_writes chans pw).chans (apply_writes chans pw).updated
      procs with
  | error e => rw [hpt] at h; cases h
  | ok ts0 =>
    rw [hpt] at h
    simp only [Except.map] at h
    cases h
    exact ⟨rfl, rfl⟩

theorem scheduled_iff_mem (procs : List PregelProc) (chans : Registry)
    (pw : List (String × Val)) (p : PregelProc) (chans2 : Registry)
    (ts : List (PregelProc × Val))
    (hok : apply_writes_and_prepare_next_tasks procs chans pw = Except.ok (chans2, ts)) :
    (scheduled procs chans pw p = true ↔ ∃ inp, (p, inp) ∈ ts) := by
  rw [scheduled, hok]
  simp only [List.any_eq_true, beq_iff_eq]
  constructor
  · rintro ⟨t, hmem, rfl⟩
    exact ⟨t.2, hmem⟩
  · rintro ⟨inp, hmem⟩
    exact ⟨(p, inp), hmem, rfl⟩

theorem prepare_task_invoke_ok (chans : Registry) (upd : List String)
    (cs : List (Option String × String))
    (hreg : ∀ c ∈ cs.map (fun e => e.2), (lookupChannel chans c).isSome = true) :
    ∃ r, prepare_task chans upd (PregelProc.invoke cs) = Except.ok r := by
  simp only [prepare_task]
  split
  · obtain ⟨r, hr⟩ := readAll_isOk cs chans hreg
    rw [hr]
    exact ⟨r.map (fun entries => (PregelProc.invoke cs, invokeInput cs entries)), rfl⟩
  · exact ⟨Option.none, rfl⟩

theorem prepare_task_invoke_some_iff (chans : Registry) (upd : List String)
    (cs : List (Option String × String))
    (hreg : ∀ c ∈ cs.map (fun e => e.2), (lookupChannel chans c).isSome = true) :
    ((∃ t, prepare_task chans upd (PregelProc.invoke cs) = Except.ok (some t))
      ↔ (cs.map (fun e => e.2)).any (fun c => upd.contains c) = true
        ∧ ∀ c ∈ cs.map (fun e => e.2), chanHasValue chans c = true) := by
  simp only [prepare_task]
  split
  · rename_i hready
    obtain ⟨r, hr⟩ := readAll_isOk cs chans hreg
    rw [hr]
    cases r with
    | none =>
      constructor
      · rintro ⟨t, ht⟩
        cases ht
      · rintro ⟨_, hall⟩
        obtain ⟨es, hes⟩ := readAll_some_of_hasValue cs chans hall
        rw [hes] at hr
        cases hr
    | some es =>
      constructor
      · intro _
        refine ⟨hready, ?_⟩
        by_contra hnot
        push_neg at hnot
        obtain ⟨c0, hc0m, hc0⟩ := hnot
        have hc0f : chanHasValue chans c0 = false := by
          cases hcv : chanHasValue chans c0 with
          | false => rfl
          | true => exact absurd hcv hc0
        have := readAll_none_of_empty cs chans hreg ⟨c0, hc0m, hc0f⟩
        rw [this] at hr
        cases hr
      · intro _
        exact ⟨(PregelProc.invoke cs, invokeInput cs es), rfl⟩
  · rename_i hready
    constructor
    · rintro ⟨t, ht⟩
      cases ht
    · rintro ⟨hrd, _⟩
      exact absurd hrd hready

/-! ### The step loop -/

theorem yieldStep_nil (output : OutputSpec) (chans : Registry) :
    yieldStep output chans [] = Except.ok Option.none := by
  cases output with
  | single name => simp [yieldStep]
  | many names => simp [yieldStep, firstKeys]

theorem stepLoop_le (exec : Exec) (procs : List PregelProc) (output : OutputSpec) :
    ∀ (limit : Nat) (chans : Registry) (tasks : List (PregelProc × Val)) (step : Nat),
    (stepLoop exec procs output chans tasks step limit).1 ≤ limit
  | 0, _, _, _ => Nat.le_refl 0
  | limit + 1, chans, tasks, step => by
    simp only [stepLoop]
    split
    · exact Nat.succ_le_succ (Nat.zero_le limit)
    · split
      · exact Nat.succ_le_succ (Nat.zero_le limit)
      · split
        · exact Nat.succ_le_succ (Nat.zero_le limit)
        · exact Nat.succ_le_succ (stepLoop_le exec procs output limit _ _ _)

theorem stepLoop_nil_tasks (exec : Exec) (procs : List PregelProc) (output : OutputSpec)
    (chans : Registry) (step : Nat) :
    ∀ (limit : Nat),
    (stepLoop exec procs output chans [] step limit).2 = Except.ok []
      ∧ (stepLoop exec procs output chans [] step limit).1 ≤ 1
  | 0 => ⟨rfl, Nat.zero_le 1⟩
  | limit + 1 => by
    have hplanner : apply_writes_and_prepare_next_tasks procs chans []
        = Except.ok (chans, []) := by
      simp only [apply_writes_and_prepare_next_tasks]
      rw [show apply_writes chans [] = ⟨chans, [], [], []⟩ from rfl]
      rw [prepare_tasks_nil_updated]
      rfl
    refine ⟨?_, ?_⟩ <;>
      simp [stepLoop, hplanner, yieldStep_nil]

/-! ### Dropping writes to unregistered names -/

theorem writesTo_filter_ne (pw : List (String × Val)) (n k : String) (h : k ≠ n) :
    writesTo (pw.filter (fun w => decide (w.1 ≠ n))) k = writesTo pw k := by
  induction pw with
  | nil => rfl
  | cons w rest ih =>
    by_cases hw : w.1 = n
    · rw [List.filter_cons, if_neg (by simp [hw])]
      rw [writesTo_cons, if_neg (fun hh : w.1 = k => h (by rw [← hh]; exact hw))]
      exact ih
    · rw [List.filter_cons, if_pos (by simp [hw])]
      rw [writesTo_cons, writesTo_cons, ih]

theorem map_fst_filter_ne (pw : List (String × Val)) (n : String) :
    (pw.filter (fun w => decide (w.1 ≠ n))).map (fun w => w.1)
      = (pw.map (fun w => w.1)).filter (fun x => decide (x ≠ n)) := by
  rw [List.filter_map]
  rfl

theorem group_writes_filter_ne (pw : List (String × Val)) (n : String) :
    group_writes (pw.filter (fun w => decide (w.1 ≠ n)))
      = (group_writes pw).filter (fun g => decide (g.1 ≠ n)) := by
  rw [group_writes_closed, group_writes_closed]
  rw [map_fst_filter_ne, firstKeys_filter]
  rw [List.filter_map]
  refine List.map_congr_left (fun k hk => ?_)
  have hkn : k ≠ n := by
    have := (List.mem_filter.mp hk).2
    simpa using this
  rw [writesTo_filter_ne pw n k hkn]

theorem applyGroups_chans_filter_ne : ∀ (gs : List (String × List Val)) (chans : Registry)
    (n : String), (lookupChannel chans n).isSome = false →
    (applyGroups chans (gs.filter (fun g => decide (g.1 ≠ n)))).chans
      = (applyGroups chans gs).chans
  | [], _, _, _ => rfl
  | g :: gs, chans, n, h => by
    by_cases hg : g.1 = n
    · rw [List.filter_cons, if_neg (by simp [hg])]
      have hlook : lookupChannel chans g.1 = Option.none := by
        rw [hg]
        cases hl : lookupChannel chans n with
        | none => rfl
        | some ch => rw [hl] at h; cases h
      rw [show (applyGroups chans (g :: gs)).chans = (applyGroups chans gs).chans by
        simp only [applyGroups, hlook]]
      exact applyGroups_chans_filter_ne gs chans n h
    · rw [List.filter_cons, if_pos (by simp [hg])]
      simp only [applyGroups]
      cases hl : lookupChannel chans g.1 with
      | some ch =>
        simp only []
        refine applyGroups_chans_filter_ne gs _ n ?_
        rw [lookupChannel_setChannel_isSome]
        exact h
      | none =>
        simp only []
        exact applyGroups_chans_filter_ne gs chans n h

theorem apply_writes_chans_filter_ne (chans : Registry) (pw : List (String × Val))
    (n : String) (h : (lookupChannel chans n).isSome = false) :
    (apply_writes chans (pw.filter (fun w => decide (w.1 ≠ n)))).chans
      = (apply_writes chans pw).chans := by
  rw [show apply_writes chans (pw.filter (fun w => decide (w.1 ≠ n)))
      = applyGroups chans (group_writes (pw.filter (fun w => decide (w.1 ≠ n)))) from rfl]
  rw [show apply_writes chans pw = applyGroups chans (group_writes pw) from rfl]
  rw [group_writes_filter_ne]
  exact applyGroups_chans_filter_ne (group_writes pw) chans n h

theorem apply_writes_updated_filter_ne (chans : Registry) (pw : List (String × Val))
    (n : String) (h : (lookupChannel chans n).isSome = false) :
    (apply_writes chans (pw.filter (fun w => decide (w.1 ≠ n)))).updated
      = (apply_writes chans pw).updated := by
  rw [show apply_writes chans (pw.filter (fun w => decide (w.1 ≠ n)))
      = applyGroups chans (group_writes (pw.filter (fun w => decide (w.1 ≠ n)))) from rfl]
  rw [show apply_writes chans pw = applyGroups chans (group_writes pw) from rfl]
  rw [applyGroups_updated, applyGroups_updated, group_writes_filter_ne]
  rw [List.filter_filter]
  refine congrArg _ (List.filter_congr (fun g _ => ?_))
  by_cases hgn : g.1 = n
  · rw [hgn, h]
    simp
  · simp [hgn]

/-! ### Remaining support lemmas -/

theorem foldl_latest : ∀ (l : List Val) (a : Val),
    List.foldl (fun _ c => c) a l = l.getLastD a
  | [], _ => rfl
  | x :: xs, a => by
    rw [List.foldl_cons, List.getLastD_cons]
    exact foldl_latest xs x

theorem lookup_isSome_of_mem_keys : ∀ (chans : Registry) (k : String),
    k ∈ chans.map (fun e => e.1) → (lookupChannel chans k).isSome = true
  | [], _, h => absurd h (List.not_mem_nil _)
  | e :: rest, k, h => by
    obtain ⟨k0, ch0⟩ := e
    rw [lookupChannel_cons]
    by_cases hk : k0 = k
    · rw [if_pos hk]
      rfl
    · rw [if_neg hk]
      refine lookup_isSome_of_mem_keys rest k ?_
      rw [List.map_cons] at h
      rcases List.mem_cons.mp h with hh | ht
      · exact absurd hh.symm hk
      · exact ht

theorem schemaFields_eq : ∀ (ks : List String) (chans : Registry),
    (∀ k ∈ ks, (lookupChannel chans k).isSome = true) →
    schemaFields chans ks
      = Except.ok (ks.map (fun k => (k, updTypeD chans k, Val.none)))
  | [], _, _ => rfl
  | k :: ks, chans, h => by
    obtain ⟨ch, hch⟩ := Option.isSome_iff_exists.mp (h k (List.mem_cons_self k ks))
    simp only [schemaFields, hch]
    rw [schemaFields_eq ks chans (fun x hx => h x (List.mem_cons_of_mem k hx))]
    rw [List.map_cons]
    rw [show updTypeD chans k = ch.updateType by simp [updTypeD, hch]]

theorem filter_key_map (w : String → List Val) (c : String) :
    ∀ (ks : List String), ks.Nodup →
    ((ks.map (fun k => (k, w k))).filter (fun g => decide (g.1 = c)))
      = if c ∈ ks then [(c, w c)] else []
  | [], _ => by simp
  | k :: ks, hnd => by
    rw [List.nodup_cons] at hnd
    rw [List.map_cons, List.filter_cons]
    by_cases hk : k = c
    · subst hk
      rw [if_pos (by simp)]
      rw [filter_key_map w k ks hnd.2]
      rw [if_neg hnd.1, if_pos (List.mem_cons_self k ks)]
    · rw [if_neg (by simp [hk])]
      rw [filter_key_map w c ks hnd.2]
      by_cases hc : c ∈ ks
      · rw [if_pos hc, if_pos (List.mem_cons_of_mem k hc)]
      · rw [if_neg hc, if_neg (by
          intro hmem
          rcases List.mem_cons.mp hmem with hh | ht
          · exact hk hh.symm
          · exact hc ht)]

theorem find_task_input (procs : List PregelProc) (chans : Registry) (upd : List String)
    (ts : List (PregelProc × Val)) (p : PregelProc) (inp : Val)
    (hpt : prepare_tasks chans upd procs = Except.ok ts)
    (hmemp : p ∈ procs)
    (htask : prepare_task chans upd p = Except.ok (some (p, inp))) :
    (ts.find? (fun t => t.1 == p)).map (fun t => t.2) = some inp := by
  have hmem : (p, inp) ∈ ts :=
    (mem_prepare_tasks procs chans upd ts (p, inp) hpt).mpr ⟨hmemp, htask⟩
  cases hfind : ts.find? (fun t => t.1 == p) with
  | none =>
    exfalso
    have := List.find?_eq_none.mp hfind _ hmem
    simp at this
  | some t0 =>
    have ht0mem := List.mem_of_find?_eq_some hfind
    have ht0p : t0.1 = p := by
      have := List.find?_some hfind
      simpa using this
    obtain ⟨_, ht0some⟩ := (mem_prepare_tasks procs chans upd ts t0 hpt).mp ht0mem
    rw [ht0p] at ht0some
    rw [htask] at ht0some
    cases ht0some
    rfl

/-! ### The claims -/

/-- C1: the claim says the single-output step loop yields iff some pending
write of the step targeted the output channel name. The code compares write
names to the output with Python `is` (object identity), not name equality:
in the run below, the step's only write targets the name "out" (same text,
conjunct 1 and 2), the channel registered under "out" receives the value
(conjunct 3), yet the run yields nothing (conjunct 4); with the identical
string object as output, the same run yields the value (conjunct 5). The
inline comment ("if any write to output channel in this step, yield") and
the name-equality check of the multi-output branch show the identity
comparison is a slip. -/
theorem c1_single_output_yield_uses_identity :
    aliasOut.str = outName.str
    ∧ targeted (List.map (fun w => (w.1.str, w.2))
        (demoExec 0 demoChans (PregelProc.invoke [(Option.none, "in")]) (Val.int 1)))
        outName.str = true
    ∧ chanState (apply_writes demoChans (List.map (fun w => (w.1.str, w.2))
        (demoExec 0 demoChans (PregelProc.invoke [(Option.none, "in")]) (Val.int 1)))).chans
        outName.str = some (Val.int 5)
    ∧ (stepLoop demoExec [] (OutputSpec.single outName) demoChans demoTasks 0 10).2
        = Except.ok []
    ∧ (stepLoop demoExec [] (OutputSpec.single aliasOut) demoChans demoTasks 0 10).2
        = Except.ok [Val.int 5] :=
  ⟨rfl, rfl, rfl, rfl, rfl⟩

/-- C5: the `read` function injected into processes returns the channel's
current value when it has one, returns `None` instead of raising when
`Channel.get` fails with `EmptyChannel`, and never surfaces `EmptyChannel`
to the process. -/
theorem c5_read_converts_empty_to_none (chans : Registry) (c : String) (ch : Channel)
    (h : lookupChannel chans c = some ch) :
    (∀ v, ch.state = some v → read chans c = Except.ok v)
    ∧ (channel_get ch = Except.error PErr.emptyChannel → read chans c = Except.ok Val.none)
    ∧ read chans c ≠ Except.error PErr.emptyChannel := by
  refine ⟨?_, ?_, ?_⟩
  · intro v hv
    simp only [read, h, channel_get, hv]
  · intro hg
    simp only [read, h, hg]
  · simp only [read, h]
    cases hst : ch.state with
    | none => simp [channel_get, hst]
    | some v => simp [channel_get, hst]

/-- C5 witness: a registered empty channel reads as `None`, and `read`
never surfaces `EmptyChannel`. -/
theorem c5_read_converts_empty_to_none_witness :
    lookupChannel [("a", lastValue)] "a" = some lastValue
    ∧ ((∀ v, lastValue.state = some v → read [("a", lastValue)] "a" = Except.ok v)
      ∧ (channel_get lastValue = Except.error PErr.emptyChannel →
          read [("a", lastValue)] "a" = Except.ok Val.none)
      ∧ read [("a", lastValue)] "a" ≠ Except.error PErr.emptyChannel) :=
  ⟨rfl, c5_read_converts_empty_to_none [("a", lastValue)] "a" lastValue rfl⟩

/-- C6: the step loop runs at most `recursion_limit` iterations, and when
the iteration budget is exhausted it terminates normally with no further
output and no error (the exhausted loop returns `(0, ok [])`, it does not
raise). -/
theorem c6_recursion_limit_bounded (exec : Exec) (procs : List PregelProc)
    (output : OutputSpec) (chans : Registry) (tasks : List (PregelProc × Val))
    (step limit : Nat) :
    (stepLoop exec procs output chans tasks step limit).1 ≤ limit
    ∧ stepLoop exec procs output chans tasks step 0 = (0, Except.ok []) :=
  ⟨stepLoop_le exec procs output limit chans tasks step, rfl⟩

/-- C7: the one-shot `invoke` entry point equals the last element of the
sequence produced by `stream` on the same input, and equals `None` when that
sequence is empty (`getLastD Val.none`). -/
theorem c7_invoke_is_last_of_stream (p : Pregel) (chans : Registry) (exec : Exec)
    (limit : Nat) (input : Val) :
    p.invoke chans exec limit input
      = (p.stream chans exec limit input).map (fun outs => outs.getLastD Val.none) := by
  rw [Pregel.invoke]
  cases hs : p.stream chans exec limit input with
  | error e => rfl
  | ok outs => simp [Except.map, foldl_latest]

/-- C9: a run whose seed planner call produces an empty task list yields
zero outputs and terminates normally (within at most one loop iteration). -/
theorem c9_empty_seed_halts (p : Pregel) (chans : Registry) (exec : Exec)
    (limit : Nat) (chunks : List Val) (seed : List (String × Val)) (chans1 : Registry)
    (hseed : seedWrites p.input chunks = Except.ok seed)
    (hplan : apply_writes_and_prepare_next_tasks p.chains chans seed
      = Except.ok (chans1, [])) :
    (p.transform chans exec limit chunks).2 = Except.ok []
    ∧ (p.transform chans exec limit chunks).1 ≤ 1 := by
  simp only [Pregel.transform, hseed, hplan]
  exact stepLoop_nil_tasks exec p.chains p.output chans1 0 limit

/-- C9 witness: an engine with no driver chunks seeds no writes, plans no
tasks, and the run emits nothing and halts. -/
theorem c9_empty_seed_halts_witness :
    seedWrites (InputSpec.single "a") [] = Except.ok []
    ∧ apply_writes_and_prepare_next_tasks [] [("a", lastValue)] []
        = Except.ok ([("a", lastValue)], [])
    ∧ ((Pregel.transform ⟨[("a", lastValue)], [], OutputSpec.single outName,
          InputSpec.single "a"⟩ [("a", lastValue)] demoExec 10 []).2 = Except.ok []
      ∧ (Pregel.transform ⟨[("a", lastValue)], [], OutputSpec.single outName,
          InputSpec.single "a"⟩ [("a", lastValue)] demoExec 10 []).1 ≤ 1) :=
  ⟨rfl, rfl,
    c9_empty_seed_halts ⟨[("a", lastValue)], [], OutputSpec.single outName,
      InputSpec.single "a"⟩ [("a", lastValue)] demoExec 10 [] [] [("a", lastValue)]
      rfl rfl⟩

/-- C3: at a step boundary, a registered channel targeted by at least one
pending write receives exactly one `update` call, whose argument is the list
of all values written to it in that step in pending-writes-buffer order; a
registered channel targeted by no write receives no `update` call (the
trace of update invocations is `(apply_writes chans pw).calls`). -/
theorem c3_channel_update_once_per_step (chans : Registry) (pw : List (String × Val))
    (c : String) (hreg : (lookupChannel chans c).isSome = true) :
    (targeted pw c = true →
      ((apply_writes chans pw).calls).filter (fun g => decide (g.1 = c))
        = [(c, writesTo pw c)])
    ∧ (targeted pw c = false →
      ((apply_writes chans pw).calls).filter (fun g => decide (g.1 = c)) = []) := by
  have hmain : ((apply_writes chans pw).calls).filter (fun g => decide (g.1 = c))
      = if c ∈ firstKeys (pw.map (fun w => w.1)) then [(c, writesTo pw c)] else [] := by
    rw [apply_writes_calls_eq, List.filter_filter]
    have hcongr : ∀ g ∈ group_writes pw,
        (decide (g.1 = c) && (lookupChannel chans g.1).isSome) = decide (g.1 = c) := by
      intro g _
      by_cases hgc : g.1 = c
      · rw [hgc, hreg]
        simp
      · simp [hgc]
    rw [List.filter_congr hcongr, group_writes_closed]
    exact filter_key_map (writesTo pw) c (firstKeys (pw.map (fun w => w.1)))
      (nodup_firstKeys _)
  constructor
  · intro ht
    rw [hmain, if_pos (mem_firstKeys.mpr ((targeted_iff pw c).mp ht))]
  · intro hf
    rw [hmain, if_neg (fun hmem => by
      have := (targeted_iff pw c).mpr (mem_firstKeys.mp hmem)
      rw [hf] at this
      cases this)]

/-- C3 witness: with writes to "a", "b", "a" in order, channel "a" gets one
update call carrying `[1, 3]` in buffer order. -/
theorem c3_channel_update_once_per_step_witness :
    (lookupChannel [("a", lastValue), ("b", lastValue)] "a").isSome = true
    ∧ ((targeted [("a", Val.int 1), ("b", Val.int 2), ("a", Val.int 3)] "a" = true →
        ((apply_writes [("a", lastValue), ("b", lastValue)]
            [("a", Val.int 1), ("b", Val.int 2), ("a", Val.int 3)]).calls).filter
            (fun g => decide (g.1 = "a"))
          = [("a", writesTo [("a", Val.int 1), ("b", Val.int 2), ("a", Val.int 3)] "a")])
      ∧ (targeted [("a", Val.int 1), ("b", Val.int 2), ("a", Val.int 3)] "a" = false →
        ((apply_writes [("a", lastValue), ("b", lastValue)]
            [("a", Val.int 1), ("b", Val.int 2), ("a", Val.int 3)]).calls).filter
            (fun g => decide (g.1 = "a")) = [])) :=
  ⟨rfl, c3_channel_update_once_per_step [("a", lastValue), ("b", lastValue)]
    [("a", Val.int 1), ("b", Val.int 2), ("a", Val.int 3)] "a" rfl⟩

/-- C4: a pending write to a name not in the registry produces a warning
diagnostic for that name, updates no channel (no update call targets it, and
the name never enters the updated set), and the planner's result equals the
result with those writes removed — the unrouted write is dropped and never
fatal. -/
theorem c4_unrouted_write_nonfatal (procs : List PregelProc) (chans : Registry)
    (pw : List (String × Val)) (n : String) (v : Val)
    (hreg : (lookupChannel chans n).isSome = false) :
    ((n, v) ∈ pw → n ∈ (apply_writes chans pw).warnings)
    ∧ n ∉ (apply_writes chans pw).updated
    ∧ (∀ g ∈ (apply_writes chans pw).calls, g.1 ≠ n)
    ∧ apply_writes_and_prepare_next_tasks procs chans pw
        = apply_writes_and_prepare_next_tasks procs chans
            (pw.filter (fun w => decide (w.1 ≠ n))) := by
  refine ⟨?_, ?_, ?_, ?_⟩
  · intro hmem
    rw [show (apply_writes chans pw).warnings
        = (applyGroups chans (group_writes pw)).warnings from rfl]
    rw [applyGroups_warnings, group_writes_closed]
    refine List.mem_map.mpr ⟨(n, writesTo pw n), List.mem_filter.mpr ⟨?_, ?_⟩, rfl⟩
    · exact List.mem_map.mpr
        ⟨n, mem_firstKeys.mpr (List.mem_map.mpr ⟨(n, v), hmem, rfl⟩), rfl⟩
    · simp [hreg]
  · intro hmem
    have := ((mem_apply_writes_updated chans pw n).mp hmem).2
    rw [hreg] at this
    cases this
  · intro g hg hgn
    rw [apply_writes_calls_eq] at hg
    have := (List.mem_filter.mp hg).2
    rw [hgn, hreg] at this
    cases this
  · have hchans := apply_writes_chans_filter_ne chans pw n hreg
    have hupd := apply_writes_updated_filter_ne chans pw n hreg
    simp only [apply_writes_and_prepare_next_tasks]
    rw [hchans, hupd]

/-- C4 witness: a write to the unregistered name "ghost" warns, updates
nothing, and dropping it leaves the planner's result unchanged. -/
theorem c4_unrouted_write_nonfatal_witness :
    (lookupChannel [("a", lastValue)] "ghost").isSome = false
    ∧ ((("ghost", Val.int 7) ∈ [("ghost", Val.int 7), ("a", Val.int 1)] →
        "ghost" ∈ (apply_writes [("a", lastValue)]
          [("ghost", Val.int 7), ("a", Val.int 1)]).warnings)
      ∧ "ghost" ∉ (apply_writes [("a", lastValue)]
          [("ghost", Val.int 7), ("a", Val.int 1)]).updated
      ∧ (∀ g ∈ (apply_writes [("a", lastValue)]
          [("ghost", Val.int 7), ("a", Val.int 1)]).calls, g.1 ≠ "ghost")
      ∧ apply_writes_and_prepare_next_tasks [] [("a", lastValue)]
          [("ghost", Val.int 7), ("a", Val.int 1)]
        = apply_writes_and_prepare_next_tasks [] [("a", lastValue)]
            ([("ghost", Val.int 7), ("a", Val.int 1)].filter
              (fun w => decide (w.1 ≠ "ghost")))) :=
  ⟨rfl, c4_unrouted_write_nonfatal [] [("a", lastValue)]
    [("ghost", Val.int 7), ("a", Val.int 1)] "ghost" (Val.int 7) rfl⟩

/-- C10: when the declared input is a sequence of names, `get_input_schema`
returns a record with one field per declared name, typed by that channel's
`UpdateType` and optional (default `None`); when the declared sequence is
empty, the record instead has one such field for every channel in the
registry, in registry order. -/
theorem c10_input_schema_record (p : Pregel) (names : List String)
    (hin : p.input = InputSpec.many names)
    (hreg : ∀ k ∈ names, (lookupChannel p.channels k).isSome = true) :
    (names ≠ [] → p.get_input_schema
      = Except.ok (InputSchema.record
          (names.map (fun k => (k, updTypeD p.channels k, Val.none)))))
    ∧ (names = [] → p.get_input_schema
      = Except.ok (InputSchema.record
          ((p.channels.map (fun e => e.1)).map
            (fun k => (k, updTypeD p.channels k, Val.none))))) := by
  constructor
  · intro hne
    simp only [Pregel.get_input_schema, hin]
    rw [if_neg (by simpa using hne)]
    rw [schemaFields_eq names p.channels hreg]
    rfl
  · intro hnil
    subst hnil
    simp only [Pregel.get_input_schema, hin]
    rw [show (if ([] : List String).isEmpty = true
        then List.map (fun (e : String × Channel) => e.1) p.channels else ([] : List String))
        = List.map (fun (e : String × Channel) => e.1) p.channels from rfl]
    rw [schemaFields_eq (p.channels.map (fun e => e.1)) p.channels
      (fun k hk => lookup_isSome_of_mem_keys p.channels k hk)]
    rfl

/-- C10 witness: declared input `["a"]` over a registry with channels "a"
and "b" yields a record with the single optional field `a`. -/
theorem c10_input_schema_record_witness :
    (⟨[("a", lastValue), ("b", lastValue)], [], OutputSpec.many [],
        InputSpec.many ["a"]⟩ : Pregel).input = InputSpec.many ["a"]
    ∧ (∀ k ∈ ["a"], (lookupChannel [("a", lastValue), ("b", lastValue)] k).isSome = true)
    ∧ ((["a"] ≠ [] →
        (⟨[("a", lastValue), ("b", lastValue)], [], OutputSpec.many [],
          InputSpec.many ["a"]⟩ : Pregel).get_input_schema
          = Except.ok (InputSchema.record (["a"].map (fun k =>
              (k, updTypeD [("a", lastValue), ("b", lastValue)] k, Val.none)))))
      ∧ (["a"] = [] →
        (⟨[("a", lastValue), ("b", lastValue)], [], OutputSpec.many [],
          InputSpec.many ["a"]⟩ : Pregel).get_input_schema
          = Except.ok (InputSchema.record
              (([("a", lastValue), ("b", lastValue)].map
                  (fun (e : String × Channel) => e.1)).map (fun k =>
                (k, updTypeD [("a", lastValue), ("b", lastValue)] k, Val.none)))))) :=
  ⟨rfl, by decide,
    c10_input_schema_record ⟨[("a", lastValue), ("b", lastValue)], [],
      OutputSpec.many [], InputSpec.many ["a"]⟩ ["a"] rfl (by decide)⟩

/-- C2: when the planner succeeds, an Invoke process is scheduled for the
next step iff it is in the process list, at least one of its subscribed
channel names was updated at the boundary, and every subscribed channel can
be read without `EmptyChannel` after the step's writes were applied; and on
a registered subscription the readiness branch itself never raises — a
process with an empty subscribed channel is skipped (`ok`), not an error. -/
theorem c2_invoke_readiness (procs : List PregelProc) (chans : Registry)
    (pw : List (String × Val)) (cs : List (Option String × String))
    (chans2 : Registry) (ts : List (PregelProc × Val))
    (hreg : ∀ c ∈ cs.map (fun e => e.2), (lookupChannel chans c).isSome = true)
    (hok : apply_writes_and_prepare_next_tasks procs chans pw = Except.ok (chans2, ts)) :
    (scheduled procs chans pw (PregelProc.invoke cs) = true
      ↔ PregelProc.invoke cs ∈ procs
        ∧ (cs.map (fun e => e.2)).any
            (fun c => (updatedChannels chans pw).contains c) = true
        ∧ ∀ c ∈ cs.map (fun e => e.2), chanHasValue chans2 c = true)
    ∧ ∃ r, prepare_task chans2 (updatedChannels chans pw) (PregelProc.invoke cs)
        = Except.ok r := by
  obtain ⟨hc2, hpt⟩ := planner_ok_inv procs chans pw chans2 ts hok
  subst hc2
  have hreg2 : ∀ c ∈ cs.map (fun e => e.2),
      (lookupChannel (apply_writes chans pw).chans c).isSome = true := by
    intro c hc
    rw [apply_writes_lookup_isSome]
    exact hreg c hc
  refine ⟨?_, prepare_task_invoke_ok _ _ cs hreg2⟩
  rw [scheduled_iff_mem procs chans pw _ _ _ hok]
  constructor
  · rintro ⟨inp, hmem⟩
    obtain ⟨hmemp, hsome⟩ := (mem_prepare_tasks procs _ _ ts _ hpt).mp hmem
    refine ⟨hmemp, ?_⟩
    exact (prepare_task_invoke_some_iff (apply_writes chans pw).chans
      (apply_writes chans pw).updated cs hreg2).mp ⟨_, hsome⟩
  · rintro ⟨hmemp, hrdy, hval⟩
    obtain ⟨t, ht⟩ := (prepare_task_invoke_some_iff (apply_writes chans pw).chans
      (apply_writes chans pw).updated cs hreg2).mpr ⟨hrdy, hval⟩
    have ht1 : t.1 = PregelProc.invoke cs := prepare_task_ok_fst _ _ _ _ ht
    refine ⟨t.2, ?_⟩
    rw [show ((PregelProc.invoke cs, t.2) : PregelProc × Val) = t by rw [← ht1]]
    refine (mem_prepare_tasks procs _ _ ts t hpt).mpr ⟨?_, ?_⟩
    · rw [ht1]
      exact hmemp
    · rw [ht1]
      exact ht

/-- C2 witness: one Invoke subscribed to "a" via the keyless form; "a" is
written, so the process is scheduled with the raw channel value. -/
theorem c2_invoke_readiness_witness :
    (∀ c ∈ [((Option.none : Option String), "a")].map (fun e => e.2),
        (lookupChannel [("a", lastValue)] c).isSome = true)
    ∧ apply_writes_and_prepare_next_tasks [PregelProc.invoke [(Option.none, "a")]]
        [("a", lastValue)] [("a", Val.int 1)]
      = Except.ok ([("a", channel_update lastValue [Val.int 1])],
          [(PregelProc.invoke [(Option.none, "a")], Val.int 1)])
    ∧ ((scheduled [PregelProc.invoke [(Option.none, "a")]] [("a", lastValue)]
          [("a", Val.int 1)] (PregelProc.invoke [(Option.none, "a")]) = true
        ↔ PregelProc.invoke [(Option.none, "a")]
            ∈ [PregelProc.invoke [(Option.none, "a")]]
          ∧ ([((Option.none : Option String), "a")].map (fun e => e.2)).any
              (fun c => (updatedChannels [("a", lastValue)]
                [("a", Val.int 1)]).contains c) = true
          ∧ ∀ c ∈ [((Option.none : Option String), "a")].map (fun e => e.2),
              chanHasValue [("a", channel_update lastValue [Val.int 1])] c = true)
      ∧ ∃ r, prepare_task [("a", channel_update lastValue [Val.int 1])]
          (updatedChannels [("a", lastValue)] [("a", Val.int 1)])
          (PregelProc.invoke [(Option.none, "a")]) = Except.ok r) :=
  ⟨by decide, rfl,
    c2_invoke_readiness [PregelProc.invoke [(Option.none, "a")]] [("a", lastValue)]
      [("a", Val.int 1)] [(Option.none, "a")]
      [("a", channel_update lastValue [Val.int 1])]
      [(PregelProc.invoke [(Option.none, "a")], Val.int 1)] (by decide) rfl⟩

/-- C8: when the planner succeeds, a Batch process is scheduled iff it is in
the process list and its single subscribed channel was updated at the
boundary; an updated channel always reads without failure; and the input
passed is the channel's sequence value with each element `v` replaced by
`{key: v}` when the key is set, and unchanged otherwise. -/
theorem c8_batch_readiness_and_input (procs : List PregelProc) (chans : Registry)
    (pw : List (String × Val)) (c : String) (key : Option String)
    (chans2 : Registry) (ts : List (PregelProc × Val))
    (hok : apply_writes_and_prepare_next_tasks procs chans pw = Except.ok (chans2, ts)) :
    (scheduled procs chans pw (PregelProc.batch c key) = true
      ↔ PregelProc.batch c key ∈ procs
        ∧ (updatedChannels chans pw).contains c = true)
    ∧ ((updatedChannels chans pw).contains c = true → chanHasValue chans2 c = true)
    ∧ (∀ xs, PregelProc.batch c key ∈ procs →
        (updatedChannels chans pw).contains c = true →
        chanState chans2 c = some (Val.list xs) →
        scheduledInput procs chans pw (PregelProc.batch c key)
          = some (match key with
              | some k => Val.list (xs.map (fun x => Val.dict [(some k, x)]))
              | Option.none => Val.list xs)) := by
  obtain ⟨hc2, hpt⟩ := planner_ok_inv procs chans pw chans2 ts hok
  subst hc2
  have hval : (updatedChannels chans pw).contains c = true →
      chanHasValue (apply_writes chans pw).chans c = true := fun h =>
    chanHasValue_of_mem_updated chans pw c ((contains_iff_mem _ _).mp h)
  have hprep : ∀ xs, ((apply_writes chans pw).updated).contains c = true →
      chanState (apply_writes chans pw).chans c = some (Val.list xs) →
      prepare_task (apply_writes chans pw).chans ((apply_writes chans pw).updated)
        (PregelProc.batch c key)
        = Except.ok (some (PregelProc.batch c key,
            match key with
            | some k => Val.list (xs.map (fun x => Val.dict [(some k, x)]))
            | Option.none => Val.list xs)) := by
    intro xs hcont hstate
    rw [chanState] at hstate
    cases hch : lookupChannel (apply_writes chans pw).chans c with
    | none => rw [hch] at hstate; cases hstate
    | some ch =>
      rw [hch] at hstate
      have hst : ch.state = some (Val.list xs) := hstate
      simp only [prepare_task, hch, hst]
      rw [if_pos hcont]
      cases key with
      | none => rfl
      | some k => rfl
  refine ⟨?_, hval, ?_⟩
  · rw [scheduled_iff_mem procs chans pw _ _ _ hok]
    constructor
    · rintro ⟨inp, hmem⟩
      obtain ⟨hmemp, hsome⟩ := (mem_prepare_tasks procs _ _ ts _ hpt).mp hmem
      refine ⟨hmemp, ?_⟩
      by_contra hcont
      have hcf : ((apply_writes chans pw).updated).contains c = false := by
        cases hx : ((apply_writes chans pw).updated).contains c with
        | true => exact absurd hx hcont
        | false => rfl
      have hsome2 : prepare_task (apply_writes chans pw).chans
          ((apply_writes chans pw).updated) (PregelProc.batch c key)
          = Except.ok (some (PregelProc.batch c key, inp)) := hsome
      rw [show prepare_task (apply_writes chans pw).chans
          ((apply_writes chans pw).updated) (PregelProc.batch c key)
          = Except.ok Option.none by
        simp only [prepare_task]
        rw [if_neg (fun hcontra => by rw [hcontra] at hcf; cases hcf)]] at hsome2
      cases hsome2
    · rintro ⟨hmemp, hcont⟩
      have hcont2 : ((apply_writes chans pw).updated).contains c = true := hcont
      have hhv := hval hcont
      rw [chanHasValue] at hhv
      cases hch : lookupChannel (apply_writes chans pw).chans c with
      | none => rw [hch] at hhv; cases hhv
      | some ch =>
        rw [hch] at hhv
        obtain ⟨v, hst⟩ := Option.isSome_iff_exists.mp hhv
        obtain ⟨r, hr⟩ := prepare_tasks_ok_of_mem procs _ _ ts _ hpt hmemp
        simp only [prepare_task, hch, hst] at hr
        rw [if_pos hcont2] at hr
        cases key with
        | none =>
          refine ⟨v, (mem_prepare_tasks procs _ _ ts _ hpt).mpr ⟨hmemp, ?_⟩⟩
          simp only [prepare_task, hch, hst]
          rw [if_pos hcont2]
        | some k =>
          cases hit : pyIter v with
          | none =>
            rw [hit] at hr
            cases hr
          | some xs =>
            refine ⟨Val.list (xs.map (fun x => Val.dict [(some k, x)])),
              (mem_prepare_tasks procs _ _ ts _ hpt).mpr ⟨hmemp, ?_⟩⟩
            simp only [prepare_task, hch, hst, hit]
            rw [if_pos hcont2]
  · intro xs hmemp hcont hstate
    have hcont2 : ((apply_writes chans pw).updated).contains c = true := hcont
    have htask := hprep xs hcont2 hstate
    simp only [scheduledInput, hok]
    exact find_task_input procs (apply_writes chans pw).chans
      (apply_writes chans pw).updated ts (PregelProc.batch c key) _ hpt hmemp htask

/-- C8 witness: a Batch with `key = "k"` over channel "a" holding
`[1, 2]` is scheduled with input `[{k: 1}, {k: 2}]`. -/
theorem c8_batch_readiness_and_input_witness :
    apply_writes_and_prepare_next_tasks [PregelProc.batch "a" (some "k")]
        [("a", lastValue)] [("a", Val.list [Val.int 1, Val.int 2])]
      = Except.ok ([("a", channel_update lastValue [Val.list [Val.int 1, Val.int 2]])],
          [(PregelProc.batch "a" (some "k"),
            Val.list [Val.dict [(some "k", Val.int 1)], Val.dict [(some "k", Val.int 2)]])])
    ∧ ((scheduled [PregelProc.batch "a" (some "k")] [("a", lastValue)]
          [("a", Val.list [Val.int 1, Val.int 2])] (PregelProc.batch "a" (some "k")) = true
        ↔ PregelProc.batch "a" (some "k") ∈ [PregelProc.batch "a" (some "k")]
          ∧ (updatedChannels [("a", lastValue)]
              [("a", Val.list [Val.int 1, Val.int 2])]).contains "a" = true)
      ∧ ((updatedChannels [("a", lastValue)]
            [("a", Val.list [Val.int 1, Val.int 2])]).contains "a" = true →
          chanHasValue [("a", channel_update lastValue
            [Val.list [Val.int 1, Val.int 2]])] "a" = true)
      ∧ (∀ xs, PregelProc.batch "a" (some "k") ∈ [PregelProc.batch "a" (some "k")] →
          (updatedChannels [("a", lastValue)]
            [("a", Val.list [Val.int 1, Val.int 2])]).contains "a" = true →
          chanState [("a", channel_update lastValue
            [Val.list [Val.int 1, Val.int 2]])] "a" = some (Val.list xs) →
          scheduledInput [PregelProc.batch "a" (some "k")] [("a", lastValue)]
            [("a", Val.list [Val.int 1, Val.int 2])] (PregelProc.batch "a" (some "k"))
            = some (match some "k" with
                | some k => Val.list (xs.map (fun x => Val.dict [(some k, x)]))
                | Option.none => Val.list xs))) :=
  ⟨rfl,
    c8_batch_readiness_and_input [PregelProc.batch "a" (some "k")] [("a", lastValue)]
      [("a", Val.list [Val.int 1, Val.int 2])] "a" (some "k")
      [("a", channel_update lastValue [Val.list [Val.int 1, Val.int 2]])]
      [(PregelProc.batch "a" (some "k"),
        Val.list [Val.dict [(some "k", Val.int 1)], Val.dict [(some "k", Val.int 2)]])]
      rfl⟩

end Permchain
